import Mathlib

/-!
Shallow embedding of the texture-map synthesis and seamless-tiling pipeline
of the textures-tools repository, together with proofs of the specified
properties.  JavaScript double-precision arithmetic is modelled by exact
rational arithmetic, and writes into an ImageData's Uint8ClampedArray are
modelled by the clamp-and-round-half-to-even conversion mandated for
Uint8ClampedArray assignment.
-/

namespace TexTools

/-- One RGBA pixel; channels are modelled as integers (a stored channel is
always in the range 0..255, which the write conversion guarantees). -/
structure Rgba where
  r : ℤ
  g : ℤ
  b : ℤ
  a : ℤ
deriving DecidableEq, Repr

/-- A pixel buffer: width, height and a pixel lookup indexed by x (column)
and y (row).  Mirrors the ImageData objects of the source, with the flat
row-major index (y*width+x)*4 replaced by coordinate indexing. -/
structure Buffer where
  width : ℕ
  height : ℕ
  data : ℕ → ℕ → Rgba

/-- Two buffers hold identical image content: same dimensions and equal
pixels at every valid coordinate. -/
def Buffer.Ident (p q : Buffer) : Prop :=
  p.width = q.width ∧ p.height = q.height ∧
    ∀ x < p.width, ∀ y < p.height, p.data x y = q.data x y

instance (p q : Buffer) : Decidable (p.Ident q) := by
  unfold Buffer.Ident; infer_instance

/-- Well-formedness of a buffer: every channel of every valid pixel lies in
the unsigned-8-bit range, as the backing Uint8ClampedArray guarantees. -/
def Buffer.WF (p : Buffer) : Prop :=
  ∀ x < p.width, ∀ y < p.height,
    (0 ≤ (p.data x y).r ∧ (p.data x y).r ≤ 255) ∧
    (0 ≤ (p.data x y).g ∧ (p.data x y).g ≤ 255) ∧
    (0 ≤ (p.data x y).b ∧ (p.data x y).b ≤ 255) ∧
    (0 ≤ (p.data x y).a ∧ (p.data x y).a ≤ 255)

instance (p : Buffer) : Decidable p.WF := by
  unfold Buffer.WF; infer_instance

/-- Round half to even on rationals, the rounding mode used when a number
is stored into a Uint8ClampedArray. -/
def rhte (q : ℚ) : ℤ :=
  if q - ⌊q⌋ < 1/2 then ⌊q⌋
  else if (1:ℚ)/2 < q - ⌊q⌋ then ⌊q⌋ + 1
  else if 2 ∣ ⌊q⌋ then ⌊q⌋ else ⌊q⌋ + 1

/-- The Uint8ClampedArray store conversion: clamp into 0..255, rounding
half to even.  Every pixel-channel write of the pipeline goes through
this function. -/
def clampRound (q : ℚ) : ℤ :=
  if q ≤ 0 then 0 else if 255 ≤ q then 255 else rhte q

/-- The three blending curves of TilingProcessor (TilingCurve in the
source, a closed enumeration). -/
inductive TilingCurve where
  | linear
  | smooth
  | cubic
deriving DecidableEq, Repr

/-- TilingProcessor.applyCurve: curve interpolation used by every tiling
algorithm.  linear is the identity, smooth is smoothstep t*t*(3-2t),
cubic is smootherstep t*t*t*(t*(t*6-15)+10). -/
def applyCurve (t : ℚ) (curve : TilingCurve) : ℚ :=
  match curve with
  | .linear => t
  | .smooth => t * t * (3 - 2 * t)
  | .cubic => t * t * t * (t * (t * 6 - 15) + 10)

/-- MapGenerator.toGrayscale: replace R, G and B by the unweighted channel
mean (R+G+B)/3, written through the Uint8ClampedArray conversion; the alpha
channel passes through unchanged. -/
def toGrayscale (img : Buffer) : Buffer where
  width := img.width
  height := img.height
  data := fun x y =>
    let p := img.data x y
    let avg : ℚ := ((p.r : ℚ) + (p.g : ℚ) + (p.b : ℚ)) / 3
    { r := clampRound avg, g := clampRound avg, b := clampRound avg, a := p.a }

/-- The color-correction options consumed by MapGenerator.applyColorCorrection
(the relevant fields of MapOptions; the source divides each percentage field
by 100 inside the function). -/
structure CCOpts where
  brightness : ℚ
  contrast : ℚ
  saturation : ℚ
  hue : ℚ
  delightAmount : ℚ

/-- MapGenerator.applyColorCorrection: delight, brightness, contrast,
saturation and hue applied per pixel in that order, each channel clamped
into 0..255 at the very end.  The parameters cosA and sinA stand for the
values Math.cos and Math.sin return on the hue angle hue*pi/180; they are
taken as parameters because the cosine is not rational, and they are only
read inside the hue-rotation branch, which is skipped when hue = 0. -/
def applyColorCorrection (img : Buffer) (opts : CCOpts) (cosA sinA : ℚ) : Buffer where
  width := img.width
  height := img.height
  data := fun x y =>
    let p := img.data x y
    let brightness := opts.brightness / 100
    let contrast := opts.contrast / 100
    let saturation := opts.saturation / 100
    let hue := opts.hue
    let delight := opts.delightAmount / 100
    let contrastFactor := (259 * (contrast * 255 + 255)) / (255 * (259 - contrast * 255))
    let r0 : ℚ := p.r
    let g0 : ℚ := p.g
    let b0 : ℚ := p.b
    let avg := (r0 + g0 + b0) / 3
    let r1 := if 0 < delight then r0 + (avg - r0) * delight * 0.5 else r0
    let g1 := if 0 < delight then g0 + (avg - g0) * delight * 0.5 else g0
    let b1 := if 0 < delight then b0 + (avg - b0) * delight * 0.5 else b0
    let r2 := r1 + brightness * 255
    let g2 := g1 + brightness * 255
    let b2 := b1 + brightness * 255
    let r3 := contrastFactor * (r2 - 128) + 128
    let g3 := contrastFactor * (g2 - 128) + 128
    let b3 := contrastFactor * (b2 - 128) + 128
    let gray := 0.2989 * r3 + 0.587 * g3 + 0.114 * b3
    let r4 := gray + (r3 - gray) * (1 + saturation)
    let g4 := gray + (g3 - gray) * (1 + saturation)
    let b4 := gray + (b3 - gray) * (1 + saturation)
    let r5 := if 0 < |hue| then
        (0.213 + cosA * 0.787 - sinA * 0.213) * r4 +
        (0.715 - cosA * 0.715 - sinA * 0.715) * g4 +
        (0.072 - cosA * 0.072 + sinA * 0.928) * b4
      else r4
    let g5 := if 0 < |hue| then
        (0.213 - cosA * 0.213 + sinA * 0.143) * r4 +
        (0.715 + cosA * 0.285 + sinA * 0.14) * g4 +
        (0.072 - cosA * 0.072 - sinA * 0.283) * b4
      else g4
    let b5 := if 0 < |hue| then
        (0.213 - cosA * 0.213 - sinA * 0.787) * r4 +
        (0.715 - cosA * 0.715 + sinA * 0.715) * g4 +
        (0.072 + cosA * 0.928 + sinA * 0.072) * b4
      else b4
    { r := clampRound (min 255 (max 0 r5))
      g := clampRound (min 255 (max 0 g5))
      b := clampRound (min 255 (max 0 b5))
      a := p.a }

/-- MapGenerator.generateHeightMap: grayscale followed by the polynomial
contrast remap around the 128 midpoint (contrast scaled by 128), clamped
into 0..255; alpha passes through from the grayscale. -/
def generateHeightMap (img : Buffer) (contrast : ℚ) : Buffer where
  width := img.width
  height := img.height
  data := fun x y =>
    let gp := (toGrayscale img).data x y
    let c := contrast * 128
    let factor := (259 * (c + 255)) / (255 * (259 - c))
    let val := factor * ((gp.r : ℚ) - 128) + 128
    { r := clampRound (min 255 (max 0 val))
      g := clampRound (min 255 (max 0 val))
      b := clampRound (min 255 (max 0 val))
      a := gp.a }

/-- MapGenerator.generateRoughnessMap: grayscale, and when invert is set
every channel value v is replaced by 255 - v. -/
def generateRoughnessMap (img : Buffer) (invert : Bool) : Buffer where
  width := img.width
  height := img.height
  data := fun x y =>
    let gp := (toGrayscale img).data x y
    if invert then
      { r := clampRound (255 - (gp.r : ℚ))
        g := clampRound (255 - (gp.r : ℚ))
        b := clampRound (255 - (gp.r : ℚ))
        a := gp.a }
    else gp

/-- Clamp an integer coordinate into 0..limit-1, the border-replication
rule Math.min(limit-1, Math.max(0, n)) used by the kernel generators. -/
def clampCoord (limit : ℕ) (n : ℤ) : ℕ := (min ((limit : ℤ) - 1) (max 0 n)).toNat

/-- MapGenerator.generateAOMap: per pixel, the mean grayscale value of the
border-clamped 5x5 neighborhood; occlusion grows with how much darker the
center is than that mean, scaled by strength*2. -/
def generateAOMap (img : Buffer) (strength : ℚ) : Buffer where
  width := img.width
  height := img.height
  data := fun x y =>
    let g := toGrayscale img
    let center : ℚ := ((g.data x y).r : ℚ)
    let sum : ℚ := ∑ ky ∈ Finset.Icc (-2 : ℤ) 2, ∑ kx ∈ Finset.Icc (-2 : ℤ) 2,
      ((g.data (clampCoord img.width ((x : ℤ) + kx))
               (clampCoord img.height ((y : ℤ) + ky))).r : ℚ)
    let avg := sum / 25
    let diff := max 0 (avg - center) * (strength * 2)
    let val := max 0 (255 - diff)
    { r := clampRound val, g := clampRound val, b := clampRound val, a := 255 }

/-- MapGenerator.generateMetalnessMap: when not metallic the metalness
value is 0 for every pixel; when metallic it is grayscale*base/255.  The
alpha channel of every output pixel is set to 255. -/
def generateMetalnessMap (img : Buffer) (isMetallic : Bool) (baseVal : ℚ) : Buffer where
  width := img.width
  height := img.height
  data := fun x y =>
    let gp := (toGrayscale img).data x y
    let val : ℚ := if isMetallic then ((gp.r : ℚ) * baseVal) / 255 else 0
    { r := clampRound val, g := clampRound val, b := clampRound val, a := 255 }

/-- MapGenerator.generateCurvatureMap: the discrete divergence of the
normal field decoded from a normal map's R (x component of left/right
neighbors) and G (y component of up/down neighbors) channels. -/
def generateCurvatureMap (normalData : Buffer) : Buffer where
  width := normalData.width
  height := normalData.height
  data := fun x y =>
    let w := normalData.width
    let h := normalData.height
    let xLeft := if 0 < x then x - 1 else x
    let xRight := if x < w - 1 then x + 1 else x
    let yUp := if 0 < y then y - 1 else y
    let yDown := if y < h - 1 then y + 1 else y
    let nxL := (((normalData.data xLeft y).r : ℚ) / 255) * 2 - 1
    let nxR := (((normalData.data xRight y).r : ℚ) / 255) * 2 - 1
    let nyU := (((normalData.data x yUp).g : ℚ) / 255) * 2 - 1
    let nyD := (((normalData.data x yDown).g : ℚ) / 255) * 2 - 1
    let curv := (nxR - nxL + (nyD - nyU)) * 0.5
    let val := (curv * 0.5 + 0.5) * 255
    { r := clampRound val, g := clampRound val, b := clampRound val, a := 255 }

/-- TilingProcessor.processOffsetOnly: the four drawImage calls shifted by
plus and minus half the width and height onto a fresh canvas amount to a
wraparound shift of the image by half its width and height; expressed as
the equivalent modular-index remapping (for even dimensions the four draws
land on integer coordinates and this is exactly their composite). -/
def processOffsetOnly (img : Buffer) : Buffer where
  width := img.width
  height := img.height
  data := fun x y =>
    img.data ((x + img.width / 2) % img.width) ((y + img.height / 2) % img.height)

/-- The blend weight computed per pixel by TilingProcessor.processCrossBlend:
a horizontal-seam weight from the distance to the horizontal center line and
a vertical-seam weight from the distance to the vertical center line, each
shaped by applyCurve over the blend-zone width, combined with max. -/
def crossBlendAlpha (w h : ℕ) (blendAmount : ℚ) (curve : TilingCurve)
    (x y : ℕ) : ℚ :=
  let blendW := (w : ℚ) * blendAmount
  let blendH := (h : ℚ) * blendAmount
  let distY := |(y : ℚ) - (h : ℚ) / 2|
  let alphaH := if distY < blendH then applyCurve (1 - distY / blendH) curve else 0
  let distX := |(x : ℚ) - (w : ℚ) / 2|
  let alphaV := if distX < blendW then applyCurve (1 - distX / blendW) curve else 0
  max alphaH alphaV

/-- TilingProcessor.processCrossBlend: blend the original image over the
half-shifted offset image with the per-pixel weight crossBlendAlpha; the
output alpha channel is written as 255. -/
def processCrossBlend (img : Buffer) (blendAmount : ℚ) (curve : TilingCurve) :
    Buffer where
  width := img.width
  height := img.height
  data := fun x y =>
    let off := (processOffsetOnly img).data x y
    let orig := img.data x y
    let alpha := crossBlendAlpha img.width img.height blendAmount curve x y
    { r := clampRound ((off.r : ℚ) * (1 - alpha) + (orig.r : ℚ) * alpha)
      g := clampRound ((off.g : ℚ) * (1 - alpha) + (orig.g : ℚ) * alpha)
      b := clampRound ((off.b : ℚ) * (1 - alpha) + (orig.b : ℚ) * alpha)
      a := 255 }

/-- TilingProcessor.processMirrorTile: four mirrored quadrants of the
source (expressed as index reflection; for even dimensions this is exactly
the four flipped drawImage calls), followed, when blendAmount is positive,
by a soft desaturation toward the local channel mean inside the central
cross-shaped band, weighted by the minimum of the two curve factors. -/
def processMirrorTile (img : Buffer) (blendAmount : ℚ) (curve : TilingCurve) :
    Buffer where
  width := img.width
  height := img.height
  data := fun x y =>
    let w := img.width
    let h := img.height
    let sx := if x < w / 2 then x else w - 1 - x
    let sy := if y < h / 2 then y else h - 1 - y
    let m := img.data sx sy
    if 0 < blendAmount then
      let blendW := (w : ℚ) * blendAmount
      let blendH := (h : ℚ) * blendAmount
      let distX := |(x : ℚ) - (w : ℚ) / 2|
      let distY := |(y : ℚ) - (h : ℚ) / 2|
      if distX < blendW ∧ distY < blendH then
        let fx := applyCurve (distX / blendW) curve
        let fy := applyCurve (distY / blendH) curve
        let factor := min fx fy
        let avg := ((m.r : ℚ) + (m.g : ℚ) + (m.b : ℚ)) / 3
        { r := clampRound ((m.r : ℚ) * factor + avg * (1 - factor))
          g := clampRound ((m.g : ℚ) * factor + avg * (1 - factor))
          b := clampRound ((m.b : ℚ) * factor + avg * (1 - factor))
          a := m.a }
      else m
    else m

/-- The local gradient-magnitude energy of TilingProcessor.processPatchMatch:
255 at the border, otherwise the mean over R, G and B of the absolute
left/right and up/down differences in a one-pixel cross neighborhood. -/
def getEnergy (buf : Buffer) (x y : ℕ) : ℚ :=
  let w := buf.width
  let h := buf.height
  if x = 0 ∨ w - 1 ≤ x ∨ y = 0 ∨ h - 1 ≤ y then 255
  else
    let pL := buf.data (x - 1) y
    let pR := buf.data (x + 1) y
    let pU := buf.data x (y - 1)
    let pD := buf.data x (y + 1)
    ((|(pR.r : ℚ) - (pL.r : ℚ)| + |(pD.r : ℚ) - (pU.r : ℚ)|)
      + (|(pR.g : ℚ) - (pL.g : ℚ)| + |(pD.g : ℚ) - (pU.g : ℚ)|)
      + (|(pR.b : ℚ) - (pL.b : ℚ)| + |(pD.b : ℚ) - (pU.b : ℚ)|)) / 3

/-- The energy factor of processPatchMatch: energyOriginal divided by
energyOriginal + energyOffset + 1. -/
def patchEnergyFactor (img : Buffer) (x y : ℕ) : ℚ :=
  let energyOffset := getEnergy (processOffsetOnly img) x y
  let energyOriginal := getEnergy img x y
  energyOriginal / (energyOriginal + energyOffset + 1)

/-- The blend weight computed per pixel by TilingProcessor.processPatchMatch:
inside the blend zone, the curve-shaped distance factor modulated by
0.5 + 0.5*energyFactor; zero outside. -/
def patchMatchAlpha (img : Buffer) (blendAmount : ℚ) (curve : TilingCurve)
    (x y : ℕ) : ℚ :=
  let w := img.width
  let h := img.height
  let blendW : ℤ := ⌊(w : ℚ) * blendAmount⌋
  let blendH : ℤ := ⌊(h : ℚ) * blendAmount⌋
  let centerX : ℤ := (w / 2 : ℕ)
  let centerY : ℤ := (h / 2 : ℕ)
  let distX : ℤ := |(x : ℤ) - centerX|
  let distY : ℤ := |(y : ℤ) - centerY|
  if distX < blendW ∨ distY < blendH then
    let energyFactor := patchEnergyFactor img x y
    let distFactor := max
      (if distX < blendW then 1 - (distX : ℚ) / (blendW : ℚ) else 0)
      (if distY < blendH then 1 - (distY : ℚ) / (blendH : ℚ) else 0)
    applyCurve distFactor curve * (0.5 + 0.5 * energyFactor)
  else 0

/-- TilingProcessor.processPatchMatch: blend the original image over the
half-shifted offset image with the energy-modulated weight patchMatchAlpha;
the output alpha channel is written as 255. -/
def processPatchMatch (img : Buffer) (blendAmount : ℚ) (curve : TilingCurve) :
    Buffer where
  width := img.width
  height := img.height
  data := fun x y =>
    let off := (processOffsetOnly img).data x y
    let orig := img.data x y
    let alpha := patchMatchAlpha img blendAmount curve x y
    { r := clampRound ((off.r : ℚ) * (1 - alpha) + (orig.r : ℚ) * alpha)
      g := clampRound ((off.g : ℚ) * (1 - alpha) + (orig.g : ℚ) * alpha)
      b := clampRound ((off.b : ℚ) * (1 - alpha) + (orig.b : ℚ) * alpha)
      a := 255 }

/-- The 3x3 Sobel gradients (dx, dy) read from a grayscale buffer's R
channel at a pixel, with border handling by coordinate replication, as in
MapGenerator.generateNormalMap. -/
def sobel (g : Buffer) (x y : ℕ) : ℚ × ℚ :=
  let w := g.width
  let h := g.height
  let xLeft := if 0 < x then x - 1 else x
  let xRight := if x < w - 1 then x + 1 else x
  let yUp := if 0 < y then y - 1 else y
  let yDown := if y < h - 1 then y + 1 else y
  let val00 : ℚ := ((g.data xLeft yUp).r : ℚ)
  let val10 : ℚ := ((g.data x yUp).r : ℚ)
  let val20 : ℚ := ((g.data xRight yUp).r : ℚ)
  let val01 : ℚ := ((g.data xLeft y).r : ℚ)
  let val21 : ℚ := ((g.data xRight y).r : ℚ)
  let val02 : ℚ := ((g.data xLeft yDown).r : ℚ)
  let val12 : ℚ := ((g.data x yDown).r : ℚ)
  let val22 : ℚ := ((g.data xRight yDown).r : ℚ)
  (val20 + 2 * val21 + val22 - (val00 + 2 * val01 + val02),
   val02 + 2 * val12 + val22 - (val00 + 2 * val10 + val20))

/-- MapGenerator.generateNormalMap as a relation between the input image,
the strength, and the produced buffer.  Math.sqrt is not rational, so the
length of the gradient vector is characterized by its defining property:
len is the nonnegative number whose square is dx^2 + dy^2 + dz^2 (with
dz = 255/strength); each channel is then encoded and stored exactly as in
the source, R and G as (n*0.5+0.5)*255 and B as nz*255, alpha 255. -/
def generateNormalMapRel (img : Buffer) (strength : ℚ) (out : Buffer) : Prop :=
  out.width = img.width ∧ out.height = img.height ∧
  ∀ x < img.width, ∀ y < img.height,
    ∃ len : ℚ, 0 ≤ len ∧
      len^2 = (sobel (toGrayscale img) x y).1^2 + (sobel (toGrayscale img) x y).2^2
        + (255 / strength)^2 ∧
      out.data x y =
        { r := clampRound (((sobel (toGrayscale img) x y).1 / len * 0.5 + 0.5) * 255)
          g := clampRound (((sobel (toGrayscale img) x y).2 / len * 0.5 + 0.5) * 255)
          b := clampRound ((255 / strength) / len * 255)
          a := 255 }

/-- The uniform gray 8x8 source of the flat-surface scenario. -/
def uniformGray8 : Buffer := ⟨8, 8, fun _ _ => ⟨128, 128, 128, 255⟩⟩

/-- The uniform flat normal map expected for a uniform source. -/
def flatNormal8 : Buffer := ⟨8, 8, fun _ _ => ⟨128, 128, 255, 255⟩⟩

/-- A 3x3 source with a horizontal brightness ramp: the rightmost column
has value 85, the rest 0; it produces a strong horizontal Sobel gradient
in its two right columns. -/
def rampImg3 : Buffer :=
  ⟨3, 3, fun x _ => if x = 2 then ⟨85, 85, 85, 255⟩ else ⟨0, 0, 0, 255⟩⟩

/-- The normal map generateNormalMap produces from rampImg3 at strength 1:
the left column is flat, the two right columns have the gradient vector
(340, 0, 255) of length 425, encoded as (230, 128, 153). -/
def rampNormal3 : Buffer :=
  ⟨3, 3, fun x _ => if x = 0 then ⟨128, 128, 255, 255⟩ else ⟨230, 128, 153, 255⟩⟩

theorem rhte_le (q : ℚ) : (⌊q⌋ : ℤ) ≤ rhte q ∧ rhte q ≤ ⌊q⌋ + 1 := by
  unfold rhte
  split <;> [skip; split] <;> [skip; skip; split] <;> omega

theorem clampRound_bounds (q : ℚ) : 0 ≤ clampRound q ∧ clampRound q ≤ 255 := by
  unfold clampRound
  split
  · omega
  · split
    · omega
    · rename_i h0 h255
      have hfl : (0:ℤ) ≤ ⌊q⌋ := by
        have : (0:ℚ) ≤ q := le_of_not_le h0
        exact_mod_cast Int.floor_nonneg.mpr this
      have hfu : ⌊q⌋ ≤ 254 := by
        have hq : q < 255 := lt_of_not_le h255
        have : ⌊q⌋ < 255 := by
          have := Int.floor_le_floor hq.le
          have h2 : ⌊q⌋ ≤ ⌊(255:ℚ)⌋ := this
          rw [show ⌊(255:ℚ)⌋ = 255 by norm_num] at h2
          rcases lt_or_eq_of_le h2 with h | h
          · exact h
          · exfalso
            have := Int.floor_le q
            rw [h] at this
            exact h255 (by exact_mod_cast this)
        omega
      have := rhte_le q
      omega

theorem rhte_intCast (n : ℤ) : rhte (n : ℚ) = n := by
  unfold rhte
  rw [Int.floor_intCast]
  simp

theorem clampRound_intCast (n : ℤ) (h0 : 0 ≤ n) (h255 : n ≤ 255) :
    clampRound (n : ℚ) = n := by
  unfold clampRound
  split
  · rename_i h
    have : n ≤ 0 := by exact_mod_cast h
    omega
  · split
    · rename_i _ h
      have : (255:ℤ) ≤ n := by exact_mod_cast h
      omega
    · exact rhte_intCast n

theorem rhte_err (q : ℚ) : |(rhte q : ℚ) - q| ≤ 1/2 := by
  have hfl := Int.floor_le q
  have hfu := Int.sub_one_lt_floor q
  unfold rhte
  split
  · rename_i h
    rw [abs_le]
    constructor <;> linarith
  · split
    · rename_i h1 h2
      rw [abs_le]
      constructor <;> push_cast <;> linarith
    · rename_i h1 h2
      have heq : q - (⌊q⌋ : ℚ) = 1/2 := le_antisymm (le_of_not_lt h2) (le_of_not_lt h1)
      split <;> rw [abs_le] <;> constructor <;> push_cast <;> linarith

theorem clampRound_err (q : ℚ) (h0 : 0 ≤ q) (h255 : q ≤ 255) :
    |(clampRound q : ℚ) - q| ≤ 1/2 := by
  unfold clampRound
  split
  · rename_i h
    have : q = 0 := le_antisymm h h0
    simp [this]
  · split
    · rename_i _ h
      have : q = 255 := le_antisymm h255 h
      simp [this]
    · exact rhte_err q

theorem applyCurve_zero (c : TilingCurve) : applyCurve 0 c = 0 := by
  cases c <;> simp [applyCurve]

theorem applyCurve_one (c : TilingCurve) : applyCurve 1 c = 1 := by
  cases c <;> norm_num [applyCurve]

theorem applyCurve_nonneg (t : ℚ) (c : TilingCurve) (h0 : 0 ≤ t) (h1 : t ≤ 1) :
    0 ≤ applyCurve t c := by
  cases c <;> simp only [applyCurve]
  · exact h0
  · nlinarith
  · nlinarith [mul_nonneg (mul_nonneg h0 h0) h0, sq_nonneg (4 * t - 5),
      mul_nonneg (mul_nonneg (mul_nonneg h0 h0) h0) (sq_nonneg (4 * t - 5))]

theorem applyCurve_le_one (t : ℚ) (c : TilingCurve) (h0 : 0 ≤ t) (h1 : t ≤ 1) :
    applyCurve t c ≤ 1 := by
  have h1' : (0:ℚ) ≤ 1 - t := by linarith
  cases c <;> simp only [applyCurve]
  · exact h1
  · nlinarith [mul_nonneg (mul_nonneg h1' h1') (by linarith : (0:ℚ) ≤ 1 + 2 * t)]
  · nlinarith [mul_nonneg (mul_nonneg (mul_nonneg h1' h1') h1')
      (by nlinarith : (0:ℚ) ≤ 6 * t * t + 3 * t + 1)]

theorem applyCurve_mono (c : TilingCurve) (s t : ℚ)
    (h0 : 0 ≤ s) (hst : s ≤ t) (h1 : t ≤ 1) :
    applyCurve s c ≤ applyCurve t c := by
  have hd : 0 ≤ t - s := by linarith
  have ht0 : 0 ≤ t := le_trans h0 hst
  have hs1 : s ≤ 1 := le_trans hst h1
  have ht1 : 0 ≤ 1 - t := by linarith
  have hs1' : 0 ≤ 1 - s := by linarith
  cases c <;> simp only [applyCurve]
  · exact hst
  · nlinarith [mul_nonneg hd (mul_nonneg ht0 ht1),
      mul_nonneg hd (mul_nonneg h0 hs1'),
      mul_nonneg hd (mul_nonneg ht0 hs1'),
      mul_nonneg hd (mul_nonneg h0 ht1)]
  · nlinarith [mul_nonneg hd (mul_nonneg (mul_nonneg ht0 ht0) (mul_nonneg ht1 ht1)),
      mul_nonneg hd (mul_nonneg (mul_nonneg h0 h0) (mul_nonneg hs1' hs1')),
      mul_nonneg hd (mul_nonneg (mul_nonneg ht0 h0) (mul_nonneg ht1 hs1')),
      mul_nonneg hd (mul_nonneg (mul_nonneg ht0 ht0) (mul_nonneg ht1 hs1')),
      mul_nonneg hd (mul_nonneg (mul_nonneg ht0 h0) (mul_nonneg hs1' hs1')),
      mul_nonneg hd (mul_nonneg (mul_nonneg ht0 h0) (mul_nonneg ht1 ht1)),
      mul_nonneg hd (mul_nonneg (mul_nonneg h0 h0) (mul_nonneg ht1 hs1')),
      sq_nonneg (t - s), sq_nonneg (t + s - 1)]

/-- C1: for every curve kind, applyCurve fixes the endpoints (0 maps to 0,
1 maps to 1) and is monotonic non-decreasing on the interval from 0 to 1. -/
theorem applyCurve_endpoints_and_mono (c : TilingCurve) :
    applyCurve 0 c = 0 ∧ applyCurve 1 c = 1 ∧
      ∀ s t : ℚ, 0 ≤ s → s ≤ t → t ≤ 1 → applyCurve s c ≤ applyCurve t c :=
  ⟨applyCurve_zero c, applyCurve_one c,
    fun s t h0 hst h1 => applyCurve_mono c s t h0 hst h1⟩

/-- Witness for C1 at the smooth curve and the concrete pair 1/4 ≤ 1/2. -/
theorem applyCurve_endpoints_and_mono_witness :
    applyCurve 0 TilingCurve.smooth = 0 ∧ applyCurve 1 TilingCurve.smooth = 1 ∧
      applyCurve (1/4) TilingCurve.smooth ≤ applyCurve (1/2) TilingCurve.smooth :=
  ⟨(applyCurve_endpoints_and_mono TilingCurve.smooth).1,
    (applyCurve_endpoints_and_mono TilingCurve.smooth).2.1,
    (applyCurve_endpoints_and_mono TilingCurve.smooth).2.2 (1/4) (1/2)
      (by norm_num) (by norm_num) (by norm_num)⟩

/-- C9: grayscale reduction is idempotent — applying toGrayscale twice
gives a buffer identical to applying it once. -/
theorem toGrayscale_idempotent (img : Buffer) :
    (toGrayscale (toGrayscale img)).Ident (toGrayscale img) := by
  refine ⟨rfl, rfl, fun x _ y _ => ?_⟩
  show (toGrayscale (toGrayscale img)).data x y = (toGrayscale img).data x y
  simp only [toGrayscale]
  set q : ℚ := (((img.data x y).r : ℚ) + ((img.data x y).g : ℚ)
      + ((img.data x y).b : ℚ)) / 3 with hq
  have hb := clampRound_bounds q
  have h3 : (((clampRound q : ℤ) : ℚ) + ((clampRound q : ℤ) : ℚ)
      + ((clampRound q : ℤ) : ℚ)) / 3 = ((clampRound q : ℤ) : ℚ) := by ring
  rw [h3, clampRound_intCast _ hb.1 hb.2]

/-- C10: with all adjustments neutral (brightness, contrast, saturation,
hue and delight all zero) color correction returns the input image
unchanged, whatever values the trig parameters take. -/
theorem applyColorCorrection_neutral_id (img : Buffer) (cosA sinA : ℚ)
    (hwf : img.WF) :
    (applyColorCorrection img ⟨0, 0, 0, 0, 0⟩ cosA sinA).Ident img := by
  refine ⟨rfl, rfl, fun x hx y hy => ?_⟩
  show (applyColorCorrection img ⟨0, 0, 0, 0, 0⟩ cosA sinA).data x y = img.data x y
  obtain ⟨⟨hr0, hr1⟩, ⟨hg0, hg1⟩, ⟨hb0, hb1⟩, _⟩ := hwf x hx y hy
  simp only [applyColorCorrection]
  have hid : ∀ v : ℚ, (259 * ((0:ℚ) / 100 * 255 + 255)) / (255 * (259 - 0 / 100 * 255))
      * (v + 0 / 100 * 255 - 128) + 128 = v := by intro v; norm_num
  norm_num
  have hcr : ∀ n : ℤ, 0 ≤ n → n ≤ 255 → clampRound (min 255 (max 0 (n:ℚ))) = n := by
    intro n hn0 hn1
    have h1 : max 0 ((n:ℚ)) = (n:ℚ) := max_eq_right (by exact_mod_cast hn0)
    have h2 : min 255 ((n:ℚ)) = (n:ℚ) := min_eq_right (by exact_mod_cast hn1)
    rw [h1, h2, clampRound_intCast n hn0 hn1]
  rw [hcr _ hr0 hr1, hcr _ hg0 hg1, hcr _ hb0 hb1]

/-- Witness for C10 at a concrete 1-by-1 image. -/
theorem applyColorCorrection_neutral_id_witness :
    (applyColorCorrection ⟨1, 1, fun _ _ => ⟨10, 20, 30, 255⟩⟩
        ⟨0, 0, 0, 0, 0⟩ 1 0).Ident ⟨1, 1, fun _ _ => ⟨10, 20, 30, 255⟩⟩ :=
  applyColorCorrection_neutral_id ⟨1, 1, fun _ _ => ⟨10, 20, 30, 255⟩⟩ 1 0
    (by decide)

/-- Counterexample to C7 as stated: generateMetalnessMap with isMetallic
false does not return an all-zero buffer, because the alpha channel of
every pixel is written as 255. -/
theorem generateMetalnessMap_not_all_zero :
    ((generateMetalnessMap ⟨1, 1, fun _ _ => ⟨7, 11, 13, 200⟩⟩ false (1/2)).data 0 0).a
      ≠ 0 := by decide

/-- C7 amended: generateMetalnessMap with isMetallic false returns a
buffer whose R, G and B channels are 0 at every pixel and whose alpha is
255, regardless of the source content and of the base value. -/
theorem generateMetalnessMap_dielectric (img : Buffer) (baseVal : ℚ) (x y : ℕ) :
    (generateMetalnessMap img false baseVal).data x y = ⟨0, 0, 0, 255⟩ := by
  simp only [generateMetalnessMap]
  norm_num
  exact clampRound_intCast 0 (by norm_num) (by norm_num)

/-- Counterexample to C4 as stated: on a 3-by-1 source the half-width
shift rounds to one pixel, and applying processOffsetOnly twice shifts by
two pixels, which is not the identity on a width-3 image. -/
theorem processOffsetOnly_not_involutive :
    ¬ (processOffsetOnly (processOffsetOnly
        ⟨3, 1, fun x _ => ⟨(x : ℤ), 0, 0, 255⟩⟩)).Ident
      ⟨3, 1, fun x _ => ⟨(x : ℤ), 0, 0, 255⟩⟩ := by decide

/-- C4 amended: for every source buffer of even width and even height,
applying processOffsetOnly twice returns a buffer identical to the
source. -/
theorem processOffsetOnly_involutive (img : Buffer)
    (hw : 2 ∣ img.width) (hh : 2 ∣ img.height) :
    (processOffsetOnly (processOffsetOnly img)).Ident img := by
  refine ⟨rfl, rfl, fun x hx y hy => ?_⟩
  have hx' : x < img.width := hx
  have hy' : y < img.height := hy
  show img.data ((((x + img.width / 2) % img.width) + img.width / 2) % img.width)
      ((((y + img.height / 2) % img.height) + img.height / 2) % img.height) = img.data x y
  have key : ∀ n z : ℕ, 2 ∣ n → z < n →
      (((z + n / 2) % n) + n / 2) % n = z := by
    intro n z h2 hz
    have e1 : z + n / 2 + n / 2 = z + n := by omega
    rw [Nat.mod_add_mod, e1, Nat.add_mod_right, Nat.mod_eq_of_lt hz]
  rw [key img.width x hw hx', key img.height y hh hy']

/-- Witness for C4 amended at a concrete 2-by-2 buffer. -/
theorem processOffsetOnly_involutive_witness :
    (processOffsetOnly (processOffsetOnly
        ⟨2, 2, fun x y => ⟨(x : ℤ), (y : ℤ), 0, 255⟩⟩)).Ident
      ⟨2, 2, fun x y => ⟨(x : ℤ), (y : ℤ), 0, 255⟩⟩ :=
  processOffsetOnly_involutive ⟨2, 2, fun x y => ⟨(x : ℤ), (y : ℤ), 0, 255⟩⟩
    (by norm_num) (by norm_num)

/-- Counterexample to C6 as stated: with blendAmount = 1/2 the central
desaturation band of processMirrorTile reaches the rightmost column (at
distance width/2 - 1 from the center line) but not the leftmost column (at
distance width/2), so on a 4x4 source with a red pixel mirrored into both
edge columns the two columns differ. -/
theorem processMirrorTile_columns_differ :
    (processMirrorTile ⟨4, 4, fun x y =>
        if x = 0 ∧ y = 1 then ⟨255, 0, 0, 255⟩ else ⟨0, 0, 0, 255⟩⟩ (1/2)
      TilingCurve.linear).data 0 2
    ≠ (processMirrorTile ⟨4, 4, fun x y =>
        if x = 0 ∧ y = 1 then ⟨255, 0, 0, 255⟩ else ⟨0, 0, 0, 255⟩⟩ (1/2)
      TilingCurve.linear).data 3 2 := by
  have hL : (processMirrorTile ⟨4, 4, fun x y =>
      if x = 0 ∧ y = 1 then ⟨255, 0, 0, 255⟩ else ⟨0, 0, 0, 255⟩⟩ (1/2)
      TilingCurve.linear).data 0 2 = ⟨255, 0, 0, 255⟩ := by
    norm_num [processMirrorTile, applyCurve, clampRound, rhte]
  have hR : (processMirrorTile ⟨4, 4, fun x y =>
      if x = 0 ∧ y = 1 then ⟨255, 0, 0, 255⟩ else ⟨0, 0, 0, 255⟩⟩ (1/2)
      TilingCurve.linear).data 3 2 = ⟨85, 85, 85, 255⟩ := by
    norm_num [processMirrorTile, applyCurve, clampRound, rhte]
  rw [hL, hR]
  decide

/-- C6 amended: for a source of even, positive width and even height, and
every blendAmount with 0 < blendAmount ≤ 1/2 - 1/width, the leftmost and
rightmost columns of the mirror-tiled output are bit-identical (both
reproduce the source's leftmost column, and the desaturation band reaches
neither). -/
theorem processMirrorTile_edge_columns (img : Buffer) (bA : ℚ) (c : TilingCurve)
    (hpos : 0 < img.width) (hw : 2 ∣ img.width) ( _hh : 2 ∣ img.height)
    (h0 : 0 < bA) (hbound : bA ≤ 1/2 - 1/(img.width : ℚ))
    (y : ℕ) ( _hy : y < img.height) :
    (processMirrorTile img bA c).data 0 y
      = (processMirrorTile img bA c).data (img.width - 1) y := by
  have hwQ0 : (0:ℚ) < (img.width:ℚ) := by exact_mod_cast hpos
  have hwQ : (2:ℚ) < (img.width:ℚ) := by
    by_contra hcon
    push_neg at hcon
    have h1 : (1:ℚ)/2 ≤ 1/(img.width:ℚ) := one_div_le_one_div_of_le hwQ0 hcon
    linarith
  have hw2 : 2 < img.width := by exact_mod_cast hwQ
  have hblendW : (img.width:ℚ) * bA ≤ (img.width:ℚ)/2 - 1 := by
    have h2 := mul_le_mul_of_nonneg_left hbound (le_of_lt hwQ0)
    have h3 : (img.width:ℚ) * (1/2 - 1/(img.width:ℚ)) = (img.width:ℚ)/2 - 1 := by
      field_simp
      ring
    linarith
  have hcast : ((img.width - 1 : ℕ) : ℚ) = (img.width : ℚ) - 1 := by
    have h1 : (1:ℕ) ≤ img.width := by omega
    push_cast [h1]
    ring
  simp only [processMirrorTile, Nat.cast_zero, zero_sub, abs_neg, hcast]
  rw [if_pos h0, if_pos h0]
  have hcondL : ¬(|(img.width:ℚ) / 2| < (img.width:ℚ) * bA ∧
      |(y:ℚ) - (img.height:ℚ) / 2| < (img.height:ℚ) * bA) := by
    rintro ⟨hx, -⟩
    rw [abs_of_nonneg (by positivity)] at hx
    linarith
  have hcondR : ¬(|(img.width:ℚ) - 1 - (img.width:ℚ) / 2| < (img.width:ℚ) * bA ∧
      |(y:ℚ) - (img.height:ℚ) / 2| < (img.height:ℚ) * bA) := by
    rintro ⟨hx, -⟩
    rw [abs_of_nonneg (by linarith)] at hx
    linarith
  rw [if_neg hcondL, if_neg hcondR]
  have hx0 : 0 < img.width / 2 := by omega
  have hxR : ¬(img.width - 1 < img.width / 2) := by omega
  rw [if_pos hx0, if_neg hxR]
  have he : img.width - 1 - (img.width - 1) = 0 := by omega
  rw [he]

/-- Witness for C6 amended at a concrete 8-by-8 buffer with blend 1/4. -/
theorem processMirrorTile_edge_columns_witness :
    (processMirrorTile ⟨8, 8, fun x y => ⟨(x : ℤ), (y : ℤ), 0, 255⟩⟩ (1/4)
        TilingCurve.smooth).data 0 3
      = (processMirrorTile ⟨8, 8, fun x y => ⟨(x : ℤ), (y : ℤ), 0, 255⟩⟩ (1/4)
        TilingCurve.smooth).data 7 3 :=
  processMirrorTile_edge_columns ⟨8, 8, fun x y => ⟨(x : ℤ), (y : ℤ), 0, 255⟩⟩
    (1/4) TilingCurve.smooth (by norm_num) (by norm_num) (by norm_num)
    (by norm_num) (by norm_num) 3 (by norm_num)

theorem seamWeight_le_one (dist blend : ℚ) (c : TilingCurve) (hd : 0 ≤ dist) :
    (if dist < blend then applyCurve (1 - dist / blend) c else 0) ≤ 1 := by
  split
  · rename_i hlt
    have hb : 0 < blend := lt_of_le_of_lt hd hlt
    have ht0 : 0 ≤ 1 - dist / blend := by
      have : dist / blend ≤ 1 := (div_le_one hb).mpr (le_of_lt hlt)
      linarith
    have ht1 : 1 - dist / blend ≤ 1 := by
      have : 0 ≤ dist / blend := div_nonneg hd (le_of_lt hb)
      linarith
    exact applyCurve_le_one _ c ht0 ht1
  · norm_num

theorem getEnergy_nonneg (buf : Buffer) (x y : ℕ) : 0 ≤ getEnergy buf x y := by
  simp only [getEnergy]
  split
  · norm_num
  · positivity

theorem crossBlendAlpha_center (w h : ℕ) (bA : ℚ) (c : TilingCurve) (x y : ℕ)
    (hw : 0 < w) (hh : 0 < h) (hbA : 0 < bA)
    (hline : (x:ℚ) = (w:ℚ)/2 ∨ (y:ℚ) = (h:ℚ)/2) :
    crossBlendAlpha w h bA c x y = 1 := by
  simp only [crossBlendAlpha]
  rcases hline with hx | hy
  · have hdx : (x:ℚ) - (w:ℚ)/2 = 0 := by rw [hx]; ring
    rw [hdx, abs_zero]
    have hbw : (0:ℚ) < (w:ℚ) * bA := by
      have h1 : (0:ℚ) < (w:ℚ) := by exact_mod_cast hw
      exact mul_pos h1 hbA
    rw [if_pos hbw, zero_div, sub_zero, applyCurve_one]
    exact max_eq_right (seamWeight_le_one _ _ c (abs_nonneg _))
  · have hdy : (y:ℚ) - (h:ℚ)/2 = 0 := by rw [hy]; ring
    rw [hdy, abs_zero]
    have hbh : (0:ℚ) < (h:ℚ) * bA := by
      have h1 : (0:ℚ) < (h:ℚ) := by exact_mod_cast hh
      exact mul_pos h1 hbA
    rw [if_pos hbh, zero_div, sub_zero, applyCurve_one]
    exact max_eq_left (seamWeight_le_one _ _ c (abs_nonneg _))

theorem crossBlendAlpha_edge (w h : ℕ) (bA : ℚ) (c : TilingCurve) (x y : ℕ)
    (hx : (w:ℚ) * bA ≤ |(x:ℚ) - (w:ℚ)/2|)
    (hy : (h:ℚ) * bA ≤ |(y:ℚ) - (h:ℚ)/2|) :
    crossBlendAlpha w h bA c x y = 0 := by
  simp only [crossBlendAlpha]
  rw [if_neg (not_lt.mpr hy), if_neg (not_lt.mpr hx)]
  exact max_self 0

theorem patchMatchAlpha_center (img : Buffer) (bA : ℚ) (c : TilingCurve) (y : ℕ)
    (h1 : 1 ≤ ⌊(img.width:ℚ) * bA⌋) :
    patchMatchAlpha img bA c (img.width / 2) y
      = (1 + patchEnergyFactor img (img.width / 2) y) / 2 ∧
    patchMatchAlpha img bA c (img.width / 2) y < 1 := by
  have hEo := getEnergy_nonneg img (img.width / 2) y
  have hEf := getEnergy_nonneg (processOffsetOnly img) (img.width / 2) y
  have hFlt : patchEnergyFactor img (img.width / 2) y < 1 := by
    simp only [patchEnergyFactor]
    rw [div_lt_one (by linarith)]
    linarith
  have hF0 : 0 ≤ patchEnergyFactor img (img.width / 2) y := by
    simp only [patchEnergyFactor]
    positivity
  have hval : patchMatchAlpha img bA c (img.width / 2) y
      = (1 + patchEnergyFactor img (img.width / 2) y) / 2 := by
    simp only [patchMatchAlpha, sub_self, abs_zero]
    have hpos : (0:ℤ) < ⌊(img.width:ℚ) * bA⌋ := by omega
    rw [if_pos (Or.inl hpos), if_pos hpos]
    have hother : (if |(y:ℤ) - ((img.height / 2 : ℕ) : ℤ)| < ⌊(img.height:ℚ) * bA⌋ then
        1 - ((|(y:ℤ) - ((img.height / 2 : ℕ) : ℤ)| : ℤ) : ℚ)
            / ((⌊(img.height:ℚ) * bA⌋ : ℤ) : ℚ)
      else 0) ≤ 1 := by
      split
      · rename_i hlt
        have hd0 : (0:ℤ) ≤ |(y:ℤ) - ((img.height / 2 : ℕ) : ℤ)| := abs_nonneg _
        have hb0 : (0:ℤ) < ⌊(img.height:ℚ) * bA⌋ := lt_of_le_of_lt hd0 hlt
        have hq : (0:ℚ) ≤ ((|(y:ℤ) - ((img.height / 2 : ℕ) : ℤ)| : ℤ) : ℚ)
            / ((⌊(img.height:ℚ) * bA⌋ : ℤ) : ℚ) := by
          apply div_nonneg
          · exact_mod_cast hd0
          · exact_mod_cast hb0.le
        linarith
      · norm_num
    simp only [Int.cast_zero, zero_div, sub_zero]
    rw [max_eq_left hother, applyCurve_one]
    ring
  exact ⟨hval, by rw [hval]; linarith⟩

theorem patchMatchAlpha_edge (img : Buffer) (bA : ℚ) (c : TilingCurve) (x y : ℕ)
    (hx : (img.width:ℚ) * bA ≤ ((|(x:ℤ) - ((img.width / 2 : ℕ) : ℤ)| : ℤ) : ℚ))
    (hy : (img.height:ℚ) * bA ≤ ((|(y:ℤ) - ((img.height / 2 : ℕ) : ℤ)| : ℤ) : ℚ)) :
    patchMatchAlpha img bA c x y = 0 := by
  simp only [patchMatchAlpha]
  have hxI : ⌊(img.width:ℚ) * bA⌋ ≤ |(x:ℤ) - ((img.width / 2 : ℕ) : ℤ)| := by
    have := (Int.floor_le ((img.width:ℚ) * bA)).trans hx
    exact_mod_cast this
  have hyI : ⌊(img.height:ℚ) * bA⌋ ≤ |(y:ℤ) - ((img.height / 2 : ℕ) : ℤ)| := by
    have := (Int.floor_le ((img.height:ℚ) * bA)).trans hy
    exact_mod_cast this
  rw [if_neg]
  push_neg
  exact ⟨hxI, hyI⟩

/-- Counterexample to C3 as stated: on an 8x8 all-black source with
blendAmount 1/2 and the linear curve, the patchMatch weight at the pixel
lying exactly on both seam center lines is 1/2, not 1.0 — the energy
modulation factor 0.5 + 0.5*energyFactor is strictly below 1. -/
theorem patchMatchAlpha_center_not_one :
    patchMatchAlpha ⟨8, 8, fun _ _ => ⟨0, 0, 0, 255⟩⟩ (1/2) TilingCurve.linear 4 4
      = 1/2 ∧
    patchMatchAlpha ⟨8, 8, fun _ _ => ⟨0, 0, 0, 255⟩⟩ (1/2) TilingCurve.linear 4 4
      ≠ 1 := by
  have hval : patchMatchAlpha ⟨8, 8, fun _ _ => ⟨0, 0, 0, 255⟩⟩ (1/2)
      TilingCurve.linear 4 4 = 1/2 := by
    norm_num [patchMatchAlpha, patchEnergyFactor, getEnergy, processOffsetOnly,
      applyCurve]
  exact ⟨hval, by rw [hval]; norm_num⟩

/-- C3 amended: for crossBlend the weight at a pixel exactly on a seam
center line is 1.0 and the weight is 0 at distance at least
blendAmount*dimension from both center lines; for patchMatch the weight at
the center column is (1 + energyFactor)/2, which is strictly below 1, and
the weight is 0 at distance at least blendAmount*dimension from both
center lines. -/
theorem seam_center_and_edge_weights :
    (∀ (w h : ℕ) (bA : ℚ) (c : TilingCurve) (x y : ℕ),
      0 < w → 0 < h → 0 < bA → ((x:ℚ) = (w:ℚ)/2 ∨ (y:ℚ) = (h:ℚ)/2) →
      crossBlendAlpha w h bA c x y = 1) ∧
    (∀ (w h : ℕ) (bA : ℚ) (c : TilingCurve) (x y : ℕ),
      (w:ℚ) * bA ≤ |(x:ℚ) - (w:ℚ)/2| → (h:ℚ) * bA ≤ |(y:ℚ) - (h:ℚ)/2| →
      crossBlendAlpha w h bA c x y = 0) ∧
    (∀ (img : Buffer) (bA : ℚ) (c : TilingCurve) (y : ℕ),
      1 ≤ ⌊(img.width:ℚ) * bA⌋ →
      patchMatchAlpha img bA c (img.width / 2) y
        = (1 + patchEnergyFactor img (img.width / 2) y) / 2 ∧
      patchMatchAlpha img bA c (img.width / 2) y < 1) ∧
    (∀ (img : Buffer) (bA : ℚ) (c : TilingCurve) (x y : ℕ),
      (img.width:ℚ) * bA ≤ ((|(x:ℤ) - ((img.width / 2 : ℕ) : ℤ)| : ℤ) : ℚ) →
      (img.height:ℚ) * bA ≤ ((|(y:ℤ) - ((img.height / 2 : ℕ) : ℤ)| : ℤ) : ℚ) →
      patchMatchAlpha img bA c x y = 0) :=
  ⟨fun w h bA c x y hw hh hbA hline =>
      crossBlendAlpha_center w h bA c x y hw hh hbA hline,
    fun w h bA c x y hx hy => crossBlendAlpha_edge w h bA c x y hx hy,
    fun img bA c y h1 => patchMatchAlpha_center img bA c y h1,
    fun img bA c x y hx hy => patchMatchAlpha_edge img bA c x y hx hy⟩

/-- Witness for C3 amended on concrete 8x8 data. -/
theorem seam_center_and_edge_weights_witness :
    crossBlendAlpha 8 8 (1/4) TilingCurve.linear 4 0 = 1 ∧
    crossBlendAlpha 8 8 (1/4) TilingCurve.linear 0 0 = 0 ∧
    patchMatchAlpha ⟨8, 8, fun _ _ => ⟨0, 0, 0, 255⟩⟩ (1/2) TilingCurve.linear 4 4
      < 1 ∧
    patchMatchAlpha ⟨8, 8, fun _ _ => ⟨0, 0, 0, 255⟩⟩ (1/2) TilingCurve.linear 0 0
      = 0 :=
  ⟨seam_center_and_edge_weights.1 8 8 (1/4) TilingCurve.linear 4 0
      (by norm_num) (by norm_num) (by norm_num) (Or.inl (by norm_num)),
    seam_center_and_edge_weights.2.1 8 8 (1/4) TilingCurve.linear 0 0
      (by norm_num) (by norm_num),
    (seam_center_and_edge_weights.2.2.1 ⟨8, 8, fun _ _ => ⟨0, 0, 0, 255⟩⟩ (1/2)
      TilingCurve.linear 4 (by norm_num)).2,
    seam_center_and_edge_weights.2.2.2 ⟨8, 8, fun _ _ => ⟨0, 0, 0, 255⟩⟩ (1/2)
      TilingCurve.linear 0 0 (by norm_num) (by norm_num)⟩

theorem uniformGray8_gray (a b : ℕ) :
    (toGrayscale uniformGray8).data a b = ⟨128, 128, 128, 255⟩ := by
  norm_num [toGrayscale, uniformGray8, clampRound, rhte]

theorem sobel_uniformGray8 (a b : ℕ) :
    sobel (toGrayscale uniformGray8) a b = (0, 0) := by
  simp only [sobel, uniformGray8_gray]
  norm_num

/-- C8: any buffer produced by generateNormalMap from the uniform gray
8x8 source, at any positive strength, has every pixel equal to
(128, 128, 255, 255): a flat surface with the normal pointing straight
out. -/
theorem generateNormalMap_flat (strength : ℚ) (hs : 0 < strength)
    (out : Buffer) (hrel : generateNormalMapRel uniformGray8 strength out) :
    ∀ x < 8, ∀ y < 8, out.data x y = ⟨128, 128, 255, 255⟩ := by
  intro x hx y hy
  obtain ⟨-, -, hpix⟩ := hrel
  obtain ⟨len, hlen0, hlen2, hdata⟩ := hpix x hx y hy
  rw [sobel_uniformGray8] at hlen2 hdata
  have hdz : (0:ℚ) < 255 / strength := by positivity
  have hfac : (len - 255 / strength) * (len + 255 / strength) = 0 := by
    linear_combination hlen2
  have hlen : len = 255 / strength := by
    rcases mul_eq_zero.mp hfac with h | h
    · linarith
    · linarith
  rw [hlen] at hdata
  have hdzne : (255:ℚ) / strength ≠ 0 := ne_of_gt hdz
  have e1 : ((0:ℚ), (0:ℚ)).1 / (255 / strength) * 0.5 + 0.5 = 0.5 := by
    norm_num
  have e3 : 255 / strength / (255 / strength) * 255 = (255:ℚ) := by
    rw [div_self hdzne]
    ring
  rw [hdata, e1, e3]
  norm_num [clampRound, rhte]

theorem flatNormal8_rel : generateNormalMapRel uniformGray8 1 flatNormal8 := by
  refine ⟨rfl, rfl, fun x hx y hy => ⟨255, by norm_num, ?_, ?_⟩⟩
  · rw [sobel_uniformGray8]
    norm_num
  · rw [sobel_uniformGray8]
    norm_num [flatNormal8, clampRound, rhte]

/-- Witness for C8 with strength 1 and the explicit flat output buffer. -/
theorem generateNormalMap_flat_witness :
    generateNormalMapRel uniformGray8 1 flatNormal8 ∧
      flatNormal8.data 0 0 = ⟨128, 128, 255, 255⟩ :=
  ⟨flatNormal8_rel,
    generateNormalMap_flat 1 one_pos flatNormal8 flatNormal8_rel 0 (by norm_num)
      0 (by norm_num)⟩

theorem sobel_rampImg3_left (b : ℕ) :
    sobel (toGrayscale rampImg3) 0 b = (0, 0) := by
  norm_num [sobel, toGrayscale, rampImg3, clampRound, rhte]

theorem sobel_rampImg3_mid (b : ℕ) :
    sobel (toGrayscale rampImg3) 1 b = (340, 0) := by
  norm_num [sobel, toGrayscale, rampImg3, clampRound, rhte]

theorem sobel_rampImg3_right (b : ℕ) :
    sobel (toGrayscale rampImg3) 2 b = (340, 0) := by
  norm_num [sobel, toGrayscale, rampImg3, clampRound, rhte]

theorem rampNormal3_rel : generateNormalMapRel rampImg3 1 rampNormal3 := by
  refine ⟨rfl, rfl, fun x hx y hy => ?_⟩
  have hx3 : x < 3 := hx
  interval_cases x
  · exact ⟨255, by norm_num,
      by rw [sobel_rampImg3_left]; norm_num,
      by rw [sobel_rampImg3_left]; norm_num [rampNormal3, clampRound, rhte]⟩
  · exact ⟨425, by norm_num,
      by rw [sobel_rampImg3_mid]; norm_num,
      by rw [sobel_rampImg3_mid]; norm_num [rampNormal3, clampRound, rhte]⟩
  · exact ⟨425, by norm_num,
      by rw [sobel_rampImg3_right]; norm_num,
      by rw [sobel_rampImg3_right]; norm_num [rampNormal3, clampRound, rhte]⟩

/-- Counterexample to C2 as stated: on rampImg3 at strength 1, the center
pixel of the produced normal map decodes under (2R/255-1, 2G/255-1,
2B/255-1) to a vector of squared norm 44627/65025, below 0.7 — far from
norm 1, because the B channel is encoded as nz*255, not (nz*0.5+0.5)*255,
so the claimed decoding does not invert it. -/
theorem generateNormalMap_decoded_norm_off :
    generateNormalMapRel rampImg3 1 rampNormal3 ∧
    (2 * ((rampNormal3.data 1 1).r : ℚ) / 255 - 1)^2
      + (2 * ((rampNormal3.data 1 1).g : ℚ) / 255 - 1)^2
      + (2 * ((rampNormal3.data 1 1).b : ℚ) / 255 - 1)^2 < 7/10 :=
  ⟨rampNormal3_rel, by norm_num [rampNormal3]⟩

theorem decode_norm_bound (nx ny nz e1 e2 e3 : ℚ)
    (hx : |nx| ≤ 1) (hy : |ny| ≤ 1) (hz : |nz| ≤ 1)
    (hsum : nx^2 + ny^2 + nz^2 = 1)
    (he1 : |e1| ≤ 1/255) (he2 : |e2| ≤ 1/255) (he3 : |e3| ≤ 1/510) :
    |(nx + e1)^2 + (ny + e2)^2 + (nz + e3)^2 - 1| ≤ 3/100 := by
  have key : (nx + e1)^2 + (ny + e2)^2 + (nz + e3)^2 - 1
      = 2*(nx*e1 + ny*e2 + nz*e3) + (e1^2 + e2^2 + e3^2) := by
    linear_combination hsum
  have p1 : |nx*e1| ≤ 1/255 := by
    rw [abs_mul]
    calc |nx| * |e1| ≤ 1 * (1/255) :=
          mul_le_mul hx he1 (abs_nonneg e1) zero_le_one
      _ = 1/255 := by ring
  have p2 : |ny*e2| ≤ 1/255 := by
    rw [abs_mul]
    calc |ny| * |e2| ≤ 1 * (1/255) :=
          mul_le_mul hy he2 (abs_nonneg e2) zero_le_one
      _ = 1/255 := by ring
  have p3 : |nz*e3| ≤ 1/510 := by
    rw [abs_mul]
    calc |nz| * |e3| ≤ 1 * (1/510) :=
          mul_le_mul hz he3 (abs_nonneg e3) zero_le_one
      _ = 1/510 := by ring
  have q1 : e1^2 ≤ (1/255)^2 := by
    rw [← sq_abs e1]
    exact pow_le_pow_left₀ (abs_nonneg e1) he1 2
  have q2 : e2^2 ≤ (1/255)^2 := by
    rw [← sq_abs e2]
    exact pow_le_pow_left₀ (abs_nonneg e2) he2 2
  have q3 : e3^2 ≤ (1/510)^2 := by
    rw [← sq_abs e3]
    exact pow_le_pow_left₀ (abs_nonneg e3) he3 2
  have q1l : 0 ≤ e1^2 := sq_nonneg e1
  have q2l : 0 ≤ e2^2 := sq_nonneg e2
  have q3l : 0 ≤ e3^2 := sq_nonneg e3
  rw [key, abs_le]
  rw [abs_le] at p1 p2 p3
  constructor <;> [linarith [p1.1, p2.1, p3.1]; linarith [p1.2, p2.2, p3.2, q1, q2, q3]]

set_option maxHeartbeats 1000000 in
/-- C2 amended: decoding R and G as 2*v/255-1 and B as v/255 (the inverse
of the encoding the source actually uses), every pixel of a generated
normal map has squared Euclidean norm within 3/100 of 1; the deviation is
only the Uint8ClampedArray quantization error. -/
theorem generateNormalMap_decoded_norm_approx (img : Buffer) (strength : ℚ)
    (out : Buffer) (hs : 0 < strength)
    (hrel : generateNormalMapRel img strength out) :
    ∀ x < img.width, ∀ y < img.height,
      |(2 * ((out.data x y).r : ℚ) / 255 - 1)^2
        + (2 * ((out.data x y).g : ℚ) / 255 - 1)^2
        + (((out.data x y).b : ℚ) / 255)^2 - 1| ≤ 3/100 := by
  intro x hx y hy
  obtain ⟨-, -, hpix⟩ := hrel
  obtain ⟨len, hlen0, hlen2, hdata⟩ := hpix x hx y hy
  set dx := (sobel (toGrayscale img) x y).1 with hdxdef
  set dy := (sobel (toGrayscale img) x y).2 with hdydef
  have hdz : (0:ℚ) < 255 / strength := by positivity
  have hlenpos : 0 < len := by
    rcases lt_or_eq_of_le hlen0 with h | h
    · exact h
    · exfalso
      rw [← h] at hlen2
      nlinarith [sq_nonneg dx, sq_nonneg dy]
  have hlenne : len ≠ 0 := ne_of_gt hlenpos
  set nx := dx / len with hnxdef
  set ny := dy / len with hnydef
  set nz := (255 / strength) / len with hnzdef
  have hsum : nx^2 + ny^2 + nz^2 = 1 := by
    rw [hnxdef, hnydef, hnzdef]
    rw [div_pow, div_pow, div_pow, div_add_div_same, div_add_div_same]
    rw [← hlen2]
    exact div_self (pow_ne_zero 2 hlenne)
  have hxabs : |nx| ≤ 1 := by
    rw [abs_le]
    constructor
    · nlinarith [sq_nonneg (nx + 1), sq_nonneg ny, sq_nonneg nz]
    · nlinarith [sq_nonneg (nx - 1), sq_nonneg ny, sq_nonneg nz]
  have hyabs : |ny| ≤ 1 := by
    rw [abs_le]
    constructor
    · nlinarith [sq_nonneg (ny + 1), sq_nonneg nx, sq_nonneg nz]
    · nlinarith [sq_nonneg (ny - 1), sq_nonneg nx, sq_nonneg nz]
  have hnz0 : 0 < nz := div_pos hdz hlenpos
  have hnz1 : nz ≤ 1 := by
    nlinarith [sq_nonneg (nz - 1), sq_nonneg nx, sq_nonneg ny]
  have hzabs : |nz| ≤ 1 := abs_le.mpr ⟨by linarith, hnz1⟩
  obtain ⟨hnxl, hnxu⟩ := abs_le.mp hxabs
  obtain ⟨hnyl, hnyu⟩ := abs_le.mp hyabs
  have hvR0 : (0:ℚ) ≤ (nx * 0.5 + 0.5) * 255 := by linarith
  have hvR255 : (nx * 0.5 + 0.5) * 255 ≤ 255 := by linarith
  have hvG0 : (0:ℚ) ≤ (ny * 0.5 + 0.5) * 255 := by linarith
  have hvG255 : (ny * 0.5 + 0.5) * 255 ≤ 255 := by linarith
  have herrR := clampRound_err _ hvR0 hvR255
  have herrG := clampRound_err _ hvG0 hvG255
  have hvB0 : (0:ℚ) ≤ nz * 255 := by positivity
  have hvB255 : nz * 255 ≤ 255 := by linarith
  have herrB := clampRound_err _ hvB0 hvB255
  have hr : ((out.data x y).r : ℚ)
      = ((clampRound ((nx * 0.5 + 0.5) * 255) : ℤ) : ℚ) := by rw [hdata]
  have hg : ((out.data x y).g : ℚ)
      = ((clampRound ((ny * 0.5 + 0.5) * 255) : ℤ) : ℚ) := by rw [hdata]
  have hb : ((out.data x y).b : ℚ)
      = ((clampRound (nz * 255) : ℤ) : ℚ) := by rw [hdata]
  have hrw : 2 * ((out.data x y).r : ℚ) / 255 - 1
      = nx + (2 * ((out.data x y).r : ℚ) / 255 - 1 - nx) := by ring
  have hgw : 2 * ((out.data x y).g : ℚ) / 255 - 1
      = ny + (2 * ((out.data x y).g : ℚ) / 255 - 1 - ny) := by ring
  have hbw : ((out.data x y).b : ℚ) / 255
      = nz + (((out.data x y).b : ℚ) / 255 - nz) := by ring
  have he1 : |2 * ((out.data x y).r : ℚ) / 255 - 1 - nx| ≤ 1/255 := by
    have heq : 2 * ((out.data x y).r : ℚ) / 255 - 1 - nx
        = (((clampRound ((nx * 0.5 + 0.5) * 255) : ℤ) : ℚ)
            - (nx * 0.5 + 0.5) * 255) * (2/255) := by
      rw [hr]
      ring
    rw [heq, abs_mul]
    rw [show |(2:ℚ)/255| = 2/255 by norm_num]
    calc |((clampRound ((nx * 0.5 + 0.5) * 255) : ℤ) : ℚ)
          - (nx * 0.5 + 0.5) * 255| * (2/255)
        ≤ (1/2) * (2/255) := by
          exact mul_le_mul_of_nonneg_right herrR (by norm_num)
      _ = 1/255 := by norm_num
  have he2 : |2 * ((out.data x y).g : ℚ) / 255 - 1 - ny| ≤ 1/255 := by
    have heq : 2 * ((out.data x y).g : ℚ) / 255 - 1 - ny
        = (((clampRound ((ny * 0.5 + 0.5) * 255) : ℤ) : ℚ)
            - (ny * 0.5 + 0.5) * 255) * (2/255) := by
      rw [hg]
      ring
    rw [heq, abs_mul]
    rw [show |(2:ℚ)/255| = 2/255 by norm_num]
    calc |((clampRound ((ny * 0.5 + 0.5) * 255) : ℤ) : ℚ)
          - (ny * 0.5 + 0.5) * 255| * (2/255)
        ≤ (1/2) * (2/255) := by
          exact mul_le_mul_of_nonneg_right herrG (by norm_num)
      _ = 1/255 := by norm_num
  have he3 : |((out.data x y).b : ℚ) / 255 - nz| ≤ 1/510 := by
    have heq : ((out.data x y).b : ℚ) / 255 - nz
        = (((clampRound (nz * 255) : ℤ) : ℚ) - nz * 255) * (1/255) := by
      rw [hb]
      ring
    rw [heq, abs_mul]
    rw [show |(1:ℚ)/255| = 1/255 by norm_num]
    calc |((clampRound (nz * 255) : ℤ) : ℚ) - nz * 255| * (1/255)
        ≤ (1/2) * (1/255) := by
          exact mul_le_mul_of_nonneg_right herrB (by norm_num)
      _ = 1/510 := by norm_num
  rw [hrw, hgw, hbw]
  exact decode_norm_bound nx ny nz _ _ _ hxabs hyabs hzabs hsum he1 he2 he3

/-- Witness for C2 amended at the uniform gray source, strength 1, and
the flat output buffer. -/
theorem generateNormalMap_decoded_norm_approx_witness :
    (0:ℚ) < 1 ∧ generateNormalMapRel uniformGray8 1 flatNormal8 ∧
    |(2 * ((flatNormal8.data 0 0).r : ℚ) / 255 - 1)^2
      + (2 * ((flatNormal8.data 0 0).g : ℚ) / 255 - 1)^2
      + (((flatNormal8.data 0 0).b : ℚ) / 255)^2 - 1| ≤ 3/100 :=
  ⟨one_pos, flatNormal8_rel,
    generateNormalMap_decoded_norm_approx uniformGray8 1 flatNormal8 one_pos
      flatNormal8_rel 0 (by decide) 0 (by decide)⟩

theorem toGrayscale_wf (img : Buffer) (hwf : img.WF) : (toGrayscale img).WF := by
  intro x hx y hy
  have hp := hwf x hx y hy
  refine ⟨⟨?_, ?_⟩, ⟨?_, ?_⟩, ⟨?_, ?_⟩, ⟨?_, ?_⟩⟩ <;>
    first
      | exact (clampRound_bounds _).1
      | exact (clampRound_bounds _).2
      | exact hp.2.2.2.1
      | exact hp.2.2.2.2

theorem applyColorCorrection_wf (img : Buffer) (opts : CCOpts) (cosA sinA : ℚ)
    (hwf : img.WF) : (applyColorCorrection img opts cosA sinA).WF := by
  intro x hx y hy
  have hp := hwf x hx y hy
  refine ⟨⟨?_, ?_⟩, ⟨?_, ?_⟩, ⟨?_, ?_⟩, ⟨?_, ?_⟩⟩ <;>
    first
      | exact (clampRound_bounds _).1
      | exact (clampRound_bounds _).2
      | exact hp.2.2.2.1
      | exact hp.2.2.2.2

theorem generateHeightMap_wf (img : Buffer) (contrast : ℚ)
    (hwf : img.WF) : (generateHeightMap img contrast).WF := by
  intro x hx y hy
  have hp := hwf x hx y hy
  refine ⟨⟨?_, ?_⟩, ⟨?_, ?_⟩, ⟨?_, ?_⟩, ⟨?_, ?_⟩⟩ <;>
    first
      | exact (clampRound_bounds _).1
      | exact (clampRound_bounds _).2
      | exact hp.2.2.2.1
      | exact hp.2.2.2.2

theorem generateNormalMapRel_wf (img : Buffer) (strength : ℚ) (out : Buffer)
    (hrel : generateNormalMapRel img strength out) : out.WF := by
  intro x hx y hy
  obtain ⟨hw, hh, hpix⟩ := hrel
  obtain ⟨len, -, -, hdata⟩ := hpix x (hw ▸ hx) y (hh ▸ hy)
  rw [hdata]
  refine ⟨⟨?_, ?_⟩, ⟨?_, ?_⟩, ⟨?_, ?_⟩, ⟨?_, ?_⟩⟩ <;>
    first
      | exact (clampRound_bounds _).1
      | exact (clampRound_bounds _).2
      | exact (by norm_num : (0:ℤ) ≤ 255)
      | exact (by norm_num : (255:ℤ) ≤ 255)

theorem generateRoughnessMap_wf (img : Buffer) (invert : Bool)
    (hwf : img.WF) : (generateRoughnessMap img invert).WF := by
  intro x hx y hy
  have hp := hwf x hx y hy
  show _ ∧ _ ∧ _ ∧ _
  simp only [generateRoughnessMap]
  cases invert <;>
    simp only [Bool.false_eq_true, if_false, if_true, reduceIte] <;>
    refine ⟨⟨?_, ?_⟩, ⟨?_, ?_⟩, ⟨?_, ?_⟩, ⟨?_, ?_⟩⟩ <;>
      first
        | exact (clampRound_bounds _).1
        | exact (clampRound_bounds _).2
        | exact hp.2.2.2.1
        | exact hp.2.2.2.2

theorem generateAOMap_wf (img : Buffer) (strength : ℚ) :
    (generateAOMap img strength).WF := by
  intro x hx y hy
  refine ⟨⟨?_, ?_⟩, ⟨?_, ?_⟩, ⟨?_, ?_⟩, ⟨?_, ?_⟩⟩ <;>
    first
      | exact (clampRound_bounds _).1
      | exact (clampRound_bounds _).2
      | exact (by norm_num : (0:ℤ) ≤ 255)
      | exact (by norm_num : (255:ℤ) ≤ 255)

theorem generateMetalnessMap_wf (img : Buffer) (met : Bool) (baseVal : ℚ) :
    (generateMetalnessMap img met baseVal).WF := by
  intro x hx y hy
  refine ⟨⟨?_, ?_⟩, ⟨?_, ?_⟩, ⟨?_, ?_⟩, ⟨?_, ?_⟩⟩ <;>
    first
      | exact (clampRound_bounds _).1
      | exact (clampRound_bounds _).2
      | exact (by norm_num : (0:ℤ) ≤ 255)
      | exact (by norm_num : (255:ℤ) ≤ 255)

theorem generateCurvatureMap_wf (img : Buffer) :
    (generateCurvatureMap img).WF := by
  intro x hx y hy
  refine ⟨⟨?_, ?_⟩, ⟨?_, ?_⟩, ⟨?_, ?_⟩, ⟨?_, ?_⟩⟩ <;>
    first
      | exact (clampRound_bounds _).1
      | exact (clampRound_bounds _).2
      | exact (by norm_num : (0:ℤ) ≤ 255)
      | exact (by norm_num : (255:ℤ) ≤ 255)

theorem processCrossBlend_wf (img : Buffer) (bA : ℚ) (c : TilingCurve) :
    (processCrossBlend img bA c).WF := by
  intro x hx y hy
  refine ⟨⟨?_, ?_⟩, ⟨?_, ?_⟩, ⟨?_, ?_⟩, ⟨?_, ?_⟩⟩ <;>
    first
      | exact (clampRound_bounds _).1
      | exact (clampRound_bounds _).2
      | exact (by norm_num : (0:ℤ) ≤ 255)
      | exact (by norm_num : (255:ℤ) ≤ 255)

theorem processPatchMatch_wf (img : Buffer) (bA : ℚ) (c : TilingCurve) :
    (processPatchMatch img bA c).WF := by
  intro x hx y hy
  refine ⟨⟨?_, ?_⟩, ⟨?_, ?_⟩, ⟨?_, ?_⟩, ⟨?_, ?_⟩⟩ <;>
    first
      | exact (clampRound_bounds _).1
      | exact (clampRound_bounds _).2
      | exact (by norm_num : (0:ℤ) ≤ 255)
      | exact (by norm_num : (255:ℤ) ≤ 255)

theorem processOffsetOnly_wf (img : Buffer) (hwf : img.WF) :
    (processOffsetOnly img).WF := by
  intro x hx y hy
  have hx' : x < img.width := hx
  have hy' : y < img.height := hy
  have hix : (x + img.width / 2) % img.width < img.width :=
    Nat.mod_lt _ (by omega)
  have hiy : (y + img.height / 2) % img.height < img.height :=
    Nat.mod_lt _ (by omega)
  exact hwf _ hix _ hiy

theorem processMirrorTile_wf (img : Buffer) (bA : ℚ) (c : TilingCurve)
    (hwf : img.WF) : (processMirrorTile img bA c).WF := by
  intro x hx y hy
  have hx' : x < img.width := hx
  have hy' : y < img.height := hy
  show _ ∧ _ ∧ _ ∧ _
  simp only [processMirrorTile]
  split_ifs <;>
    refine ⟨⟨?_, ?_⟩, ⟨?_, ?_⟩, ⟨?_, ?_⟩, ⟨?_, ?_⟩⟩ <;>
      first
        | exact (clampRound_bounds _).1
        | exact (clampRound_bounds _).2
        | exact (hwf _ (by omega) _ (by omega)).1.1
        | exact (hwf _ (by omega) _ (by omega)).1.2
        | exact (hwf _ (by omega) _ (by omega)).2.1.1
        | exact (hwf _ (by omega) _ (by omega)).2.1.2
        | exact (hwf _ (by omega) _ (by omega)).2.2.1.1
        | exact (hwf _ (by omega) _ (by omega)).2.2.1.2
        | exact (hwf _ (by omega) _ (by omega)).2.2.2.1
        | exact (hwf _ (by omega) _ (by omega)).2.2.2.2

/-- C5: every channel value written by any pipeline stage — color
correction, height, normal, roughness, AO, metalness, curvature, and the
four tiling algorithms — lies in 0..255; the model has no NaN or infinite
values, and every store goes through the Uint8ClampedArray conversion or
copies an in-range input channel. -/
theorem pipeline_outputs_in_range (img : Buffer) (hwf : img.WF) :
    (∀ (opts : CCOpts) (cosA sinA : ℚ),
      (applyColorCorrection img opts cosA sinA).WF) ∧
    (∀ contrast : ℚ, (generateHeightMap img contrast).WF) ∧
    (∀ (strength : ℚ) (out : Buffer),
      generateNormalMapRel img strength out → out.WF) ∧
    (∀ invert : Bool, (generateRoughnessMap img invert).WF) ∧
    (∀ strength : ℚ, (generateAOMap img strength).WF) ∧
    (∀ (met : Bool) (baseVal : ℚ), (generateMetalnessMap img met baseVal).WF) ∧
    (generateCurvatureMap img).WF ∧
    (∀ (bA : ℚ) (c : TilingCurve), (processCrossBlend img bA c).WF) ∧
    (∀ (bA : ℚ) (c : TilingCurve), (processMirrorTile img bA c).WF) ∧
    (∀ (bA : ℚ) (c : TilingCurve), (processPatchMatch img bA c).WF) ∧
    (processOffsetOnly img).WF :=
  ⟨fun opts cosA sinA => applyColorCorrection_wf img opts cosA sinA hwf,
    fun contrast => generateHeightMap_wf img contrast hwf,
    fun strength out hrel => generateNormalMapRel_wf img strength out hrel,
    fun invert => generateRoughnessMap_wf img invert hwf,
    fun strength => generateAOMap_wf img strength,
    fun met baseVal => generateMetalnessMap_wf img met baseVal,
    generateCurvatureMap_wf img,
    fun bA c => processCrossBlend_wf img bA c,
    fun bA c => processMirrorTile_wf img bA c hwf,
    fun bA c => processPatchMatch_wf img bA c,
    processOffsetOnly_wf img hwf⟩

/-- Witness for C5 at a concrete 1-by-1 image and concrete options. -/
theorem pipeline_outputs_in_range_witness :
    (generateCurvatureMap ⟨1, 1, fun _ _ => ⟨10, 20, 30, 255⟩⟩).WF ∧
    (processOffsetOnly ⟨1, 1, fun _ _ => ⟨10, 20, 30, 255⟩⟩).WF :=
  ⟨(pipeline_outputs_in_range ⟨1, 1, fun _ _ => ⟨10, 20, 30, 255⟩⟩
      (by decide)).2.2.2.2.2.2.1,
    (pipeline_outputs_in_range ⟨1, 1, fun _ _ => ⟨10, 20, 30, 255⟩⟩
      (by decide)).2.2.2.2.2.2.2.2.2.2⟩
